import Mathlib

/-!
Verification of the grain-interval algebra of the `vam-online` repository
(`src/help/grains.js`), shallowly embedded in Lean 4.

A grain is a half-open interval `[start, end)` over integer sample indices,
carrying caller-supplied metadata that split operations must preserve.  JS
grain objects are records with arbitrary extra keys; we model the two reserved
keys (`filler`, `more`) explicitly and all remaining caller metadata by a
single `tag` field.  A key absent from a JS object is modelled by the default
value (`false` for the flags, `0` for `tag`).

JS functions that can throw a `TypeError` (indexing an array out of bounds and
then dereferencing `undefined`) are modelled as `Option`-valued functions
returning `none` in exactly those situations.
-/

/-- A grain record: half-open interval `[start, end)` plus metadata. -/
structure Grain where
  start : Int
  «end» : Int
  filler : Bool
  more : Bool
  tag : Nat
deriving DecidableEq, Repr

/-- The default used to model JS `undefined` lookups that the claims never reach. -/
def noGrain : Grain := ⟨0, 0, false, false, 0⟩

/-- A grain with only `start` and `end` set, as produced by the partition generator. -/
def plainGrain (s e : Int) : Grain := ⟨s, e, false, false, 0⟩

/-- A view window request `{start, end}` in sample-index space. -/
structure View where
  start : Int
  «end» : Int
deriving DecidableEq, Repr

/-- Result record of `grainIndexesInView`. -/
structure Indexes where
  startIndex : Int
  endIndex : Int
deriving DecidableEq, Repr

/-- `isInGrain` from grains.js: `target >= grain.start && target < grain.end`. -/
def isInGrain (target : Int) (grain : Grain) : Bool :=
  decide (target ≥ grain.start) && decide (target < grain.«end»)

/-- Modelled from the spec: the core of the §4.3 division binary search, which is
declared in `help/generic.js` (a file not present in the sources): it "returns the
index of the grain whose `[start, end)` interval contains `target`".  We model the
search linearly (first containing index); on sorted contiguous input this agrees
with any binary search driven by `isInGrain`.  When no grain contains the target
the observed logic is left open by the spec ("undefined/edge"); we return the
`-1` sentinel, and no theorem below depends on that case. -/
def findGrain (target : Int) : List Grain → Int
  | [] => -1
  | g :: gs =>
    if isInGrain target g then 0
    else
      let r := findGrain target gs
      if r = -1 then -1 else r + 1

/-- Modelled from the spec: `divisionBinarySearch(target, grains, upperBound?)` of
§4.3 (declared in the missing `help/generic.js`).  "If an optional `upperBound`
(total track length) is supplied and `target >= upperBound`, the function signals
out of range by returning `-1` rather than searching"; otherwise it returns the
index of the grain containing `target`. -/
def divisionBinarySearch (target : Int) (grains : List Grain)
    (upperBound : Option Int) : Int :=
  match upperBound with
  | some ub => if target ≥ ub then -1 else findGrain target grains
  | none => findGrain target grains

/-- `splitGrainIntoTwo` from grains.js: splits one grain at `splitPoint`,
returning `[grain]` unchanged when the point is on/before the start or on/after
the last valid sample (`end - 1`), and otherwise two metadata-preserving halves. -/
def splitGrainIntoTwo (grain : Grain) (splitPoint : Int) : List Grain :=
  let pointTooLow := splitPoint ≤ grain.start
  let pointTooHigh := splitPoint ≥ grain.«end» - 1
  if pointTooLow ∨ pointTooHigh then
    [grain]
  else
    let leftGrain : Grain := { grain with start := grain.start, «end» := splitPoint }
    let rightGrain : Grain := { grain with start := splitPoint, «end» := grain.«end» }
    [leftGrain, rightGrain]

/-- `splitGrain` from grains.js.  `grains[0].start` on an empty array throws in
JS (`undefined.start`), modelled by `none`; likewise the `slice(-1, 0)[0]`
dereference that would follow a `-1` search result.  `slice(0, i)` is `take i`,
`slice(i+1, lastGrainIndex+1)` is `drop (i+1)` (the upper bound is the length),
and `slice(i, i+1)[0]` is the element at `i`. -/
def splitGrain (grains : List Grain) (splitPoint : Int) : Option (List Grain) :=
  match grains with
  | [] => none
  | g0 :: rest =>
    let gs := g0 :: rest
    let firstSample := g0.start
    let lastSample := (gs.getLastD noGrain).«end» - 1
    if splitPoint ≤ firstSample ∨ splitPoint ≥ lastSample then
      some gs
    else
      let t := divisionBinarySearch splitPoint gs none
      if t < 0 then none
      else
        let i := t.toNat
        let leftSide := gs.take i
        let rightSide := gs.drop (i + 1)
        let targetGrain := gs.getD i noGrain
        some (leftSide ++ splitGrainIntoTwo targetGrain splitPoint ++ rightSide)

/-- The §3 contiguity invariant: each grain's `end` equals the next grain's `start`. -/
def Contiguous (gs : List Grain) : Prop :=
  List.Chain' (fun a b => a.«end» = b.start) gs

/-- Decidability of the contiguity invariant, by structural recursion so that
`decide` can evaluate it on concrete sequences. -/
instance instDecidableContiguous : (gs : List Grain) → Decidable (Contiguous gs)
  | [] => isTrue trivial
  | [_] => isTrue (List.chain'_singleton _)
  | a :: b :: t =>
    haveI : Decidable (Contiguous (b :: t)) := instDecidableContiguous (b :: t)
    decidable_of_iff (a.«end» = b.start ∧ Contiguous (b :: t))
      (by simp [Contiguous, List.chain'_cons])

/-- Every grain of the list is a proper (positive-length) interval, the `start < end`
part of the §3 invariant. -/
def AllPos (gs : List Grain) : Prop :=
  ∀ g ∈ gs, g.start < g.«end»

instance (gs : List Grain) : Decidable (AllPos gs) :=
  inferInstanceAs (Decidable (∀ g ∈ gs, g.start < g.«end»))

/-- Modelled from the spec: `secondsToSamples(seconds)` of §6, an external
collaborator declared in the missing `help/convert.js`, "converts a duration
into a sample-count grain length".  We fix the standard audio rate of 44100
samples per second; no theorem depends on the specific rate. -/
def secondsToSamples (seconds : Nat) : Nat :=
  seconds * 44100

/-- Modelled from the spec: `logicalSegment(data, segmentSize)` of §4.4, declared
in the missing `help/generic.js`: partitions `[0, data.length)` into consecutive
grains of `segmentSize` samples, the final grain shortened to fit, with no
metadata beyond `start` and `end`. -/
def logicalSegment (data : List Int) (segmentSize : Nat) : List Grain :=
  let n := data.length
  let segCount := (n + segmentSize - 1) / segmentSize
  (List.range segCount).map fun i =>
    plainGrain ((i * segmentSize : Nat) : Int) ((min ((i + 1) * segmentSize) n : Nat) : Int)

/-- `createEquallySpacedGrains` from grains.js. -/
def createEquallySpacedGrains (data : List Int) (secondsPerGrain : Nat) : List Grain :=
  let grainLength := secondsToSamples secondsPerGrain
  logicalSegment data grainLength

/-- `grainLengths` from grains.js: `end - start` for every grain. -/
def grainLengths (grains : List Grain) : List Int :=
  grains.map (fun g => g.«end» - g.start)

/-- JS `Math.ceil(l / c)` on integers (for positive `c`): `-((-l) fdiv c)`. -/
def jsCeilDiv (l : Int) (c : Int) : Int :=
  -((-l).fdiv c)

/-- Modelled from the spec: `range(n) -> sequence 0..n-1` of §6, declared in the
missing `help/generic.js`; empty for non-positive `n`. -/
def range (n : Int) : List Nat :=
  List.range n.toNat

/-- JS `data[i]`: reading out of range yields `undefined`; the claims only reach
in-range reads, for which this equals the list element.  Out-of-range reads are
given the junk value 0. -/
def nthData (data : List Int) (i : Int) : Int :=
  if i < 0 then 0 else data.getD i.toNat 0

/-- `createSampleCases` from grains.js.  The nondeterministic collaborator
`random(low, high)` (§6: "integer in `[low, high)`", declared in the missing
`help/math.js`) is modelled as an oracle parameter `rnd`, indexed by the grain
index and by the position of the draw inside the grain so that every JS call
site corresponds to one oracle value.  `grains.map((g, i) => ...)` is modelled
as a map over the index range. -/
def createSampleCases (rnd : Nat → Nat → Int → Int → Int) (grains : List Grain)
    (data : List Int) (caseRate : Int) : List (List Int) :=
  let lengths := grainLengths grains
  let casesPerGrain := lengths.map (fun l => jsCeilDiv l caseRate)
  let rangePerGrain := casesPerGrain.map range
  (List.range grains.length).map fun i =>
    let g := grains.getD i noGrain
    let casesIndexes := (rangePerGrain.getD i []).map fun k => rnd i k g.start g.«end»
    let collectedSignedData := casesIndexes.map (nthData data)
    collectedSignedData.map fun x => |x|

/-- `grainIndexesInView` from grains.js.  On an empty grain array the JS code
dereferences `grains[-1]` (`undefined.end`) and throws, modelled by `none`. -/
def grainIndexesInView (grains : List Grain) (view : View) : Option Indexes :=
  match grains with
  | [] => none
  | g0 :: rest =>
    let gs := g0 :: rest
    let lastIndex : Int := (gs.length : Int) - 1
    let trackLength := (gs.getLastD noGrain).«end»
    let startIndex := divisionBinarySearch view.start gs (some trackLength)
    let endIndexFromSearch := divisionBinarySearch view.«end» gs (some trackLength)
    let endIndex := if endIndexFromSearch = -1 then lastIndex else endIndexFromSearch
    some ⟨startIndex, endIndex⟩

/-- `createFillerGrain` from grains.js: `{start, end, more, filler: true}`. -/
def createFillerGrain (start «end» : Int) (more : Bool) : Grain :=
  ⟨start, «end», true, more, 0⟩

/-- JS `grains[i]` for a possibly negative `Int` index, as an `Option` (JS yields
`undefined` out of range, and the callers below immediately dereference it). -/
def jsIndex (grains : List Grain) (i : Int) : Option Grain :=
  if i < 0 then none else grains[i.toNat]?

/-- `whichGrainsToShow` from grains.js.  The two `grains[...]` reads are
dereferenced (`.start` / `.end`), so an out-of-range index throws in JS,
modelled by `none`.  `grains.slice(startIndex, endIndex + 1)` is
`take (endIndex + 1)` followed by `drop startIndex` (both indexes are
non-negative whenever this code is reached). -/
def whichGrainsToShow (grains : List Grain) (view : View) : Option (List Grain) :=
  match grainIndexesInView grains view with
  | none => none
  | some idx =>
    match jsIndex grains idx.startIndex, jsIndex grains idx.endIndex with
    | some firstGrainToShow, some lastGrainToShow =>
      let moreStart := idx.startIndex != 0
      let startFiller := createFillerGrain view.start firstGrainToShow.start moreStart
      let lastGrainIndex : Int := (grains.length : Int) - 1
      let moreEnd := lastGrainIndex != idx.endIndex
      let endFiller := createFillerGrain lastGrainToShow.«end» view.«end» moreEnd
      let grainsToInclude := (grains.take (idx.endIndex + 1).toNat).drop idx.startIndex.toNat
      some (startFiller :: (grainsToInclude ++ [endFiller]))
    | _, _ => none

/-- The set-level reading of "the concatenated span equals `[view.start, view.end)`
exactly": a sample index is covered by some returned grain iff it lies in the view. -/
def coversExactly (out : List Grain) (v : View) : Prop :=
  ∀ t : Int, (∃ g ∈ out, g.start ≤ t ∧ t < g.«end») ↔ (v.start ≤ t ∧ t < v.«end»)

/-- Case analysis of `splitGrainIntoTwo`: the no-op singleton on an out-of-range
split point, and the exact two metadata-preserving halves otherwise. -/
theorem splitGrainIntoTwo_eq (g : Grain) (p : Int) :
    (p ≤ g.start ∨ p ≥ g.«end» - 1 → splitGrainIntoTwo g p = [g]) ∧
    (g.start < p → p < g.«end» - 1 →
      splitGrainIntoTwo g p =
        [⟨g.start, p, g.filler, g.more, g.tag⟩, ⟨p, g.«end», g.filler, g.more, g.tag⟩]) := by
  constructor
  · intro h
    simp only [splitGrainIntoTwo]
    rw [if_pos h]
  · intro h1 h2
    have hlow : ¬ (p ≤ g.start ∨ p ≥ g.«end» - 1) := by
      push_neg
      exact ⟨h1, h2⟩
    simp only [splitGrainIntoTwo, if_neg hlow]

/-- C2: splitting one grain is the identity (wrapped in a singleton) when the split
point is at/below the grain start or at/above its last valid sample (`end - 1`),
and otherwise yields exactly the two halves `[start, p)`, `[p, end)`, each
preserving the `filler`, `more` and `tag` metadata of the original by value. -/
theorem splitGrainIntoTwo_spec (g : Grain) (p : Int) :
    (p ≤ g.start ∨ p ≥ g.«end» - 1 → splitGrainIntoTwo g p = [g]) ∧
    (g.start < p → p < g.«end» - 1 →
      splitGrainIntoTwo g p =
        [⟨g.start, p, g.filler, g.more, g.tag⟩, ⟨p, g.«end», g.filler, g.more, g.tag⟩]) :=
  splitGrainIntoTwo_eq g p

/-- Witness for `splitGrainIntoTwo_spec`: a concrete proper split preserving metadata. -/
theorem splitGrainIntoTwo_spec_witness :
    splitGrainIntoTwo ⟨0, 10, false, true, 7⟩ 5 =
      [⟨0, 5, false, true, 7⟩, ⟨5, 10, false, true, 7⟩] :=
  (splitGrainIntoTwo_spec ⟨0, 10, false, true, 7⟩ 5).2 (by decide) (by decide)

/-! ### Helper lemmas about list access -/

theorem getD_in (l : List Grain) (n : Nat) (h : n < l.length) :
    l.getD n noGrain = l[n] := by
  simp [List.getD_eq_getElem?_getD, List.getElem?_eq_getElem h]

theorem headD_append_left (l r : List Grain) (h : l ≠ []) :
    (l ++ r).headD noGrain = l.headD noGrain := by
  cases l with
  | nil => exact absurd rfl h
  | cons a t => simp

theorem getLastD_append_right (l r : List Grain) (h : r ≠ []) :
    (l ++ r).getLastD noGrain = r.getLastD noGrain := by
  simp only [List.getLastD_eq_getLast?, List.getLast?_append]
  cases hr : r.getLast? with
  | none =>
    rw [List.getLast?_eq_none_iff] at hr
    exact absurd hr h
  | some a => simp

theorem list_decomp (l : List Grain) (k : Nat) (hk : k < l.length) :
    l = l.take k ++ ([l.getD k noGrain] ++ l.drop (k + 1)) := by
  rw [getD_in l k hk]
  rw [List.singleton_append, ← List.drop_eq_getElem_cons hk, List.take_append_drop]

/-! ### Characterization of the modelled search -/

theorem findGrain_cases (p : Int) (gs : List Grain) :
    (findGrain p gs = -1 ∧ ∀ m, m < gs.length → isInGrain p (gs.getD m noGrain) = false) ∨
    (∃ k : Nat, findGrain p gs = (k : Int) ∧ k < gs.length ∧
      isInGrain p (gs.getD k noGrain) = true ∧
      ∀ m, m < k → isInGrain p (gs.getD m noGrain) = false) := by
  induction gs with
  | nil =>
    left
    exact ⟨rfl, by intro m hm; simp at hm⟩
  | cons g rest ih =>
    by_cases hg : isInGrain p g
    · right
      refine ⟨0, ?_, by simp, by simpa using hg, by intro m hm; omega⟩
      simp [findGrain, hg]
    · rcases ih with ⟨h1, h2⟩ | ⟨k, hk, hlen, hget, hmin⟩
      · left
        constructor
        · simp [findGrain, hg, h1]
        · intro m hm
          cases m with
          | zero => simpa using Bool.eq_false_iff.mpr hg
          | succ m' =>
            simp only [List.getD_cons_succ]
            exact h2 m' (by simpa using hm)
      · right
        refine ⟨k + 1, ?_, by simpa using hlen, by simpa using hget, ?_⟩
        · have hne : findGrain p rest ≠ -1 := by
            rw [hk]
            omega
          simp only [findGrain, if_neg hg]
          rw [if_neg (by rw [hk]; omega), hk]
          push_cast
          ring
        · intro m hm
          cases m with
          | zero => simpa using Bool.eq_false_iff.mpr hg
          | succ m' =>
            simp only [List.getD_cons_succ]
            exact hmin m' (by omega)

theorem findGrain_eq_of (p : Int) (gs : List Grain) (k : Nat) (hk : k < gs.length)
    (hin : isInGrain p (gs.getD k noGrain) = true)
    (hmin : ∀ m, m < k → isInGrain p (gs.getD m noGrain) = false) :
    findGrain p gs = (k : Int) := by
  rcases findGrain_cases p gs with ⟨_, hall⟩ | ⟨k', hk', _, hget', hmin'⟩
  · rw [hall k hk] at hin
    exact absurd hin (by simp)
  · rcases Nat.lt_trichotomy k k' with h | h | h
    · rw [hmin' k h] at hin
      exact absurd hin (by simp)
    · rw [hk', h]
    · rw [hmin k' h] at hget'
      exact absurd hget' (by simp)

theorem exists_contains_of_between (gs : List Grain) (hc : Contiguous gs) (p : Int)
    (hne : gs ≠ []) (h1 : (gs.headD noGrain).start ≤ p)
    (h2 : p < (gs.getLastD noGrain).«end») :
    ∃ m, m < gs.length ∧ isInGrain p (gs.getD m noGrain) = true := by
  induction gs with
  | nil => exact absurd rfl hne
  | cons g rest ih =>
    by_cases hp : p < g.«end»
    · refine ⟨0, by simp, ?_⟩
      simp only [List.getD_cons_zero, isInGrain, Bool.and_eq_true, decide_eq_true_eq]
      exact ⟨by simpa using h1, hp⟩
    · push_neg at hp
      cases rest with
      | nil =>
        simp only [List.getLastD_eq_getLast?, List.getLast?_singleton,
          Option.getD_some] at h2
        omega
      | cons r rest' =>
        have hcr : Contiguous (r :: rest') := (List.chain'_cons'.mp hc).2
        have hlink : g.«end» = r.start := by
          have := (List.chain'_cons'.mp hc).1
          simpa using this r rfl
        have h1' : ((r :: rest').headD noGrain).start ≤ p := by
          simp only [List.headD_cons]
          omega
        have h2' : p < ((r :: rest').getLastD noGrain).«end» := by
          simpa using h2
        rcases ih hcr (by simp) h1' h2' with ⟨m, hm, hin⟩
        exact ⟨m + 1, by simpa using hm, by simpa using hin⟩

theorem adjacent_link (gs : List Grain) (hc : Contiguous gs) (i : Nat)
    (h : i + 1 < gs.length) :
    (gs.getD i noGrain).«end» = (gs.getD (i + 1) noGrain).start := by
  rw [getD_in gs i (by omega), getD_in gs (i + 1) h]
  have := List.chain'_iff_get.mp hc i (by omega)
  simpa using this

theorem end_le_start_of_lt (gs : List Grain) (hc : Contiguous gs) (ha : AllPos gs) :
    ∀ j, j < gs.length → ∀ i, i < j →
      (gs.getD i noGrain).«end» ≤ (gs.getD j noGrain).start := by
  intro j
  induction j with
  | zero => intro _ i hi; omega
  | succ j' ihj =>
    intro hj i hi
    rcases Nat.lt_or_ge i j' with hij | hij
    · have h1 := ihj (by omega) i hij
      have h2 : (gs.getD j' noGrain).start < (gs.getD j' noGrain).«end» := by
        apply ha
        rw [getD_in gs j' (by omega)]
        exact List.getElem_mem _
      have h3 := adjacent_link gs hc j' hj
      omega
    · have hij' : i = j' := by omega
      subst hij'
      have := adjacent_link gs hc i hj
      omega

theorem head?_eq_headD (l : List Grain) (h : l ≠ []) :
    l.head? = some (l.headD noGrain) := by
  cases l with
  | nil => exact absurd rfl h
  | cons a t => simp

theorem getLast?_eq_getLastD (l : List Grain) (h : l ≠ []) :
    l.getLast? = some (l.getLastD noGrain) := by
  cases hl : l.getLast? with
  | none =>
    rw [List.getLast?_eq_none_iff] at hl
    exact absurd hl h
  | some a => simp [List.getLastD_eq_getLast?, hl]

/-- Replacing the grain `g` inside a contiguous sequence by a non-empty contiguous
segment with the same first start and last end keeps the sequence contiguous and
preserves its overall first start and last end. -/
theorem contiguous_replace (l r seg : List Grain) (g : Grain)
    (hc : Contiguous (l ++ ([g] ++ r)))
    (hseg : seg ≠ []) (hcs : Contiguous seg)
    (hh : (seg.headD noGrain).start = g.start)
    (hl : (seg.getLastD noGrain).«end» = g.«end») :
    Contiguous (l ++ (seg ++ r)) ∧
    ((l ++ (seg ++ r)).headD noGrain).start = ((l ++ ([g] ++ r)).headD noGrain).start ∧
    ((l ++ (seg ++ r)).getLastD noGrain).«end» =
      ((l ++ ([g] ++ r)).getLastD noGrain).«end» := by
  unfold Contiguous at hc hcs ⊢
  rw [List.chain'_append] at hc
  obtain ⟨hcl, hcgr, hlink⟩ := hc
  rw [List.singleton_append, List.chain'_cons'] at hcgr
  obtain ⟨hgr, hcr⟩ := hcgr
  have hlinkg : ∀ x ∈ l.getLast?, x.«end» = g.start := by
    intro x hx
    have := hlink x hx g (by simp)
    exact this
  refine ⟨?_, ?_, ?_⟩
  · rw [List.chain'_append]
    refine ⟨hcl, ?_, ?_⟩
    · rw [List.chain'_append]
      refine ⟨hcs, hcr, ?_⟩
      intro x hx y hy
      rw [getLast?_eq_getLastD seg hseg] at hx
      simp only [Option.mem_def, Option.some_inj] at hx
      subst hx
      rw [hl]
      exact hgr y hy
    · intro x hx y hy
      rw [head?_eq_headD (seg ++ r) (by simp [hseg])] at hy
      simp only [Option.mem_def, Option.some_inj] at hy
      subst hy
      rw [headD_append_left seg r hseg, hh]
      exact hlinkg x hx
  · cases hln : l with
    | nil =>
      simp only [List.nil_append]
      rw [headD_append_left seg r hseg]
      simpa using hh
    | cons a t =>
      rw [headD_append_left (a :: t) (seg ++ r) (by simp),
        headD_append_left (a :: t) ([g] ++ r) (by simp)]
  · cases hrn : r with
    | nil =>
      simp only [List.append_nil]
      rw [getLastD_append_right l seg hseg, getLastD_append_right l [g] (by simp)]
      simpa using hl
    | cons a t =>
      rw [getLastD_append_right l (seg ++ (a :: t)) (by simp),
        getLastD_append_right seg (a :: t) (by simp),
        getLastD_append_right l ([g] ++ (a :: t)) (by simp),
        getLastD_append_right [g] (a :: t) (by simp)]

/-- The two halves produced by `splitGrainIntoTwo` on a grain containing the split
point form a non-empty contiguous segment with the same first start and last end
as the original grain, and all its grains are proper intervals. -/
theorem splitGrainIntoTwo_segment (g : Grain) (p : Int) (hpos : g.start < g.«end») :
    splitGrainIntoTwo g p ≠ [] ∧ Contiguous (splitGrainIntoTwo g p) ∧
    AllPos (splitGrainIntoTwo g p) ∧
    ((splitGrainIntoTwo g p).headD noGrain).start = g.start ∧
    ((splitGrainIntoTwo g p).getLastD noGrain).«end» = g.«end» := by
  by_cases hq : p ≤ g.start ∨ p ≥ g.«end» - 1
  · rw [(splitGrainIntoTwo_eq g p).1 hq]
    refine ⟨by simp, ?_, ?_, rfl, rfl⟩
    · unfold Contiguous
      simp
    · intro x hx
      simp only [List.mem_singleton] at hx
      subst hx
      exact hpos
  · push_neg at hq
    rw [(splitGrainIntoTwo_eq g p).2 hq.1 hq.2]
    refine ⟨by simp, ?_, ?_, rfl, rfl⟩
    · unfold Contiguous
      simp
    · intro x hx
      simp only [List.mem_cons, List.not_mem_nil, or_false] at hx
      rcases hx with hx | hx <;> subst hx
      · exact hq.1
      · simp only []
        omega

/-- C1: for every non-empty grain sequence satisfying the contiguity invariant
(adjacent grains touch, every grain a proper interval so starts ascend) and every
split point, `splitGrain` succeeds and returns a sequence that still satisfies the
invariant, with the first grain's start and the last grain's end unchanged. -/
theorem splitGrain_preserves_invariant (gs : List Grain) (p : Int)
    (hne : gs ≠ []) (hc : Contiguous gs) (ha : AllPos gs) :
    ∃ out, splitGrain gs p = some out ∧ out ≠ [] ∧ Contiguous out ∧ AllPos out ∧
      (out.headD noGrain).start = (gs.headD noGrain).start ∧
      (out.getLastD noGrain).«end» = (gs.getLastD noGrain).«end» := by
  cases gs with
  | nil => exact absurd rfl hne
  | cons g0 rest =>
  simp only [splitGrain]
  by_cases hquick : p ≤ g0.start ∨ p ≥ ((g0 :: rest).getLastD noGrain).«end» - 1
  · rw [if_pos hquick]
    exact ⟨g0 :: rest, rfl, by simp, hc, ha, rfl, rfl⟩
  · rw [if_neg hquick]
    push_neg at hquick
    obtain ⟨h1, h2⟩ := hquick
    have hcov := exists_contains_of_between (g0 :: rest) hc p (by simp)
      (by simpa using le_of_lt h1) (by omega)
    obtain ⟨m, hm, hin⟩ := hcov
    have hfind : ∃ k : Nat, findGrain p (g0 :: rest) = (k : Int) ∧
        k < (g0 :: rest).length ∧ isInGrain p ((g0 :: rest).getD k noGrain) = true := by
      rcases findGrain_cases p (g0 :: rest) with ⟨_, hall⟩ | ⟨k, hk, hklen, hkin, _⟩
      · rw [hall m hm] at hin
        exact absurd hin (by simp)
      · exact ⟨k, hk, hklen, hkin⟩
    obtain ⟨k, hk, hklen, hkin⟩ := hfind
    simp only [divisionBinarySearch]
    rw [hk]
    rw [if_neg (by omega)]
    have htn : ((k : Int)).toNat = k := Int.toNat_natCast k
    rw [htn]
    set g := (g0 :: rest).getD k noGrain with hg
    have hgmem : g ∈ (g0 :: rest) := by
      rw [hg, getD_in _ k hklen]
      exact List.getElem_mem hklen
    have hgpos : g.start < g.«end» := ha g hgmem
    obtain ⟨hsne, hsc, hsa, hsh, hsl⟩ := splitGrainIntoTwo_segment g p hgpos
    have hdecomp := list_decomp (g0 :: rest) k hklen
    rw [← hg] at hdecomp
    have hc' : Contiguous ((g0 :: rest).take k ++ ([g] ++ (g0 :: rest).drop (k + 1))) := by
      rw [← hdecomp]
      exact hc
    obtain ⟨hro, rh, rl⟩ := contiguous_replace ((g0 :: rest).take k)
      ((g0 :: rest).drop (k + 1)) (splitGrainIntoTwo g p) g hc' hsne hsc hsh hsl
    refine ⟨_, rfl, ?_, ?_, ?_, ?_, ?_⟩
    · intro hempty
      rw [List.append_assoc] at hempty
      simp only [List.append_eq_nil] at hempty
      exact hsne hempty.2.1
    · rw [List.append_assoc]
      exact hro
    · intro x hx
      rw [List.append_assoc, List.mem_append, List.mem_append] at hx
      rcases hx with hx | hx | hx
      · exact ha x (List.take_subset k (g0 :: rest) hx)
      · exact hsa x hx
      · exact ha x (List.drop_subset (k + 1) (g0 :: rest) hx)
    · rw [List.append_assoc, rh, ← hdecomp]
    · rw [List.append_assoc, rl, ← hdecomp]

/-- Witness for `splitGrain_preserves_invariant`: splitting `[[0,10),[10,20),[20,30)]`
at 15 keeps contiguity and the overall span `[0, 30)`. -/
theorem splitGrain_preserves_invariant_witness :
    ∃ out, splitGrain [plainGrain 0 10, plainGrain 10 20, plainGrain 20 30] 15 = some out ∧
      out ≠ [] ∧ Contiguous out ∧ AllPos out ∧
      (out.headD noGrain).start =
        (([plainGrain 0 10, plainGrain 10 20, plainGrain 20 30]).headD noGrain).start ∧
      (out.getLastD noGrain).«end» =
        (([plainGrain 0 10, plainGrain 10 20, plainGrain 20 30]).getLastD noGrain).«end» :=
  splitGrain_preserves_invariant [plainGrain 0 10, plainGrain 10 20, plainGrain 20 30] 15
    (by decide) (by decide) (by decide)

theorem getD_append_lt (l r : List Grain) (n : Nat) (h : n < l.length) :
    (l ++ r).getD n noGrain = l.getD n noGrain := by
  simp [List.getD_eq_getElem?_getD, List.getElem?_append_left h]

theorem getD_append_ge (l r : List Grain) (n : Nat) (h : l.length ≤ n) :
    (l ++ r).getD n noGrain = r.getD (n - l.length) noGrain := by
  simp [List.getD_eq_getElem?_getD, List.getElem?_append_right h]

theorem getD_take_lt (l : List Grain) (n m : Nat) (h : m < n) :
    (l.take n).getD m noGrain = l.getD m noGrain := by
  simp [List.getD_eq_getElem?_getD, List.getElem?_take_of_lt h]

/-- Computation rule for `splitGrain` when the quick-exit guard fails and the
search finds a containing grain at index `k`. -/
theorem splitGrain_eq_of_found (gs : List Grain) (p : Int) (k : Nat) (hne : gs ≠ [])
    (hq : ¬ (p ≤ (gs.headD noGrain).start ∨ p ≥ (gs.getLastD noGrain).«end» - 1))
    (hfind : findGrain p gs = (k : Int)) :
    splitGrain gs p =
      some (gs.take k ++ splitGrainIntoTwo (gs.getD k noGrain) p ++ gs.drop (k + 1)) := by
  cases gs with
  | nil => exact absurd rfl hne
  | cons g0 rest =>
    simp only [List.headD_cons] at hq
    simp only [splitGrain, divisionBinarySearch]
    rw [if_neg hq, hfind, if_neg (by omega), Int.toNat_natCast]

/-- C4: splitting a valid sequence twice at the same point strictly inside the
track's effective range `(firstStart, lastEnd - 1)` equals splitting it once:
after the first split the point lies on a grain boundary, so the second split
is a no-op. -/
theorem splitGrain_idempotent (gs : List Grain) (p : Int)
    (hne : gs ≠ []) (hc : Contiguous gs) (ha : AllPos gs)
    (h1 : (gs.headD noGrain).start < p)
    (h2 : p < (gs.getLastD noGrain).«end» - 1) :
    (splitGrain gs p).bind (fun gs2 => splitGrain gs2 p) = splitGrain gs p := by
  have hq : ¬ (p ≤ (gs.headD noGrain).start ∨ p ≥ (gs.getLastD noGrain).«end» - 1) := by
    push_neg
    exact ⟨h1, h2⟩
  obtain ⟨m, hm, hin⟩ := exists_contains_of_between gs hc p hne (le_of_lt h1) (by omega)
  obtain ⟨k, hk, hklen, hkin, hkmin⟩ :
      ∃ k : Nat, findGrain p gs = (k : Int) ∧ k < gs.length ∧
        isInGrain p (gs.getD k noGrain) = true ∧
        ∀ mm, mm < k → isInGrain p (gs.getD mm noGrain) = false := by
    rcases findGrain_cases p gs with ⟨_, hall⟩ | ⟨k, hk, hklen, hkin, hkmin⟩
    · rw [hall m hm] at hin
      exact absurd hin (by simp)
    · exact ⟨k, hk, hklen, hkin, hkmin⟩
  have hrun := splitGrain_eq_of_found gs p k hne hq hk
  rw [hrun, Option.some_bind]
  have hgmem : gs.getD k noGrain ∈ gs := by
    rw [getD_in _ k hklen]
    exact List.getElem_mem hklen
  have hgin : (gs.getD k noGrain).start ≤ p ∧ p < (gs.getD k noGrain).«end» := by
    simpa [isInGrain] using hkin
  by_cases hsp : p ≤ (gs.getD k noGrain).start ∨ p ≥ (gs.getD k noGrain).«end» - 1
  · have hseg := (splitGrainIntoTwo_eq (gs.getD k noGrain) p).1 hsp
    have hout : gs.take k ++ [gs.getD k noGrain] ++ gs.drop (k + 1) = gs := by
      rw [List.append_assoc]
      exact (list_decomp gs k hklen).symm
    rw [hseg, hout, hrun, hseg, hout]
  · push_neg at hsp
    obtain ⟨hB1, hB2⟩ := hsp
    have hseg := (splitGrainIntoTwo_eq (gs.getD k noGrain) p).2 hB1 hB2
    set g := gs.getD k noGrain with hgdef
    set gl : Grain := ⟨g.start, p, g.filler, g.more, g.tag⟩ with hgl
    set gr : Grain := ⟨p, g.«end», g.filler, g.more, g.tag⟩ with hgr
    set L := gs.take k with hL
    set R := gs.drop (k + 1) with hR
    have hLlen : L.length = k := by
      rw [hL, List.length_take]
      omega
    rw [hseg]
    -- Normalize the association of the appends.
    rw [List.append_assoc]
    have hone : L ++ ([gl, gr] ++ R) ≠ [] := by
      intro h
      simp [List.append_eq_nil] at h
    have hcgs : Contiguous (L ++ ([g] ++ R)) := by
      rw [← list_decomp gs k hklen]
      exact hc
    have hsegprops := splitGrainIntoTwo_segment g p (ha g hgmem)
    rw [hseg] at hsegprops
    obtain ⟨_, hsc, hsa, hsh, hsl⟩ := hsegprops
    obtain ⟨hoc, hohead, holast⟩ :=
      contiguous_replace L R [gl, gr] g hcgs (by simp) hsc hsh hsl
    have hgshead : ((L ++ ([g] ++ R)).headD noGrain).start = (gs.headD noGrain).start := by
      rw [← list_decomp gs k hklen]
    have hgslast : ((L ++ ([g] ++ R)).getLastD noGrain).«end» =
        (gs.getLastD noGrain).«end» := by
      rw [← list_decomp gs k hklen]
    have hq' : ¬ (p ≤ ((L ++ ([gl, gr] ++ R)).headD noGrain).start ∨
        p ≥ ((L ++ ([gl, gr] ++ R)).getLastD noGrain).«end» - 1) := by
      rw [hohead, holast, hgshead, hgslast]
      exact hq
    have hlen' : (L ++ ([gl, gr] ++ R)).length = k + 2 + R.length := by
      simp [List.length_append, hLlen]
      omega
    have hassoc1 : L ++ ([gl, gr] ++ R) = (L ++ [gl]) ++ ([gr] ++ R) := by
      simp [List.append_assoc]
    have hgetk1 : (L ++ ([gl, gr] ++ R)).getD (k + 1) noGrain = gr := by
      rw [hassoc1, getD_append_ge _ _ (k + 1) (by simp [hLlen])]
      simp [hLlen]
    have hfind' : findGrain p (L ++ ([gl, gr] ++ R)) = ((k + 1 : Nat) : Int) := by
      apply findGrain_eq_of
      · omega
      · rw [hgetk1]
        simp only [hgr, isInGrain, Bool.and_eq_true, decide_eq_true_eq]
        omega
      · intro mm hmm
        rcases Nat.lt_or_ge mm k with hmk | hmk
        · rw [getD_append_lt _ _ mm (by omega), hL, getD_take_lt gs k mm hmk]
          exact hkmin mm hmk
        · have hmmk : mm = k := by omega
          subst hmmk
          rw [getD_append_ge _ _ mm (by omega), hLlen]
          simp only [Nat.sub_self, List.getD_cons_zero, hgl, isInGrain]
          simp
    have hrun2 := splitGrain_eq_of_found (L ++ ([gl, gr] ++ R)) p (k + 1) hone hq' hfind'
    rw [hrun2, hgetk1]
    have hsplitgr : splitGrainIntoTwo gr p = [gr] :=
      (splitGrainIntoTwo_eq gr p).1 (Or.inl (by simp [hgr]))
    rw [hsplitgr]
    have htake : (L ++ ([gl, gr] ++ R)).take (k + 1) = L ++ [gl] := by
      rw [hassoc1]
      exact List.take_left' (by simp [hLlen])
    have hdrop : (L ++ ([gl, gr] ++ R)).drop (k + 2) = R := by
      have hassoc2 : L ++ ([gl, gr] ++ R) = (L ++ [gl, gr]) ++ R := by
        simp [List.append_assoc]
      rw [hassoc2]
      exact List.drop_left' (by simp [hLlen])
    rw [htake, hdrop]
    simp [List.append_assoc]

/-- Witness for `splitGrain_idempotent`: splitting `[[0,10),[10,20),[20,30)]` twice
at 15 equals splitting once. -/
theorem splitGrain_idempotent_witness :
    (splitGrain [plainGrain 0 10, plainGrain 10 20, plainGrain 20 30] 15).bind
        (fun gs2 => splitGrain gs2 15) =
      splitGrain [plainGrain 0 10, plainGrain 10 20, plainGrain 20 30] 15 :=
  splitGrain_idempotent [plainGrain 0 10, plainGrain 10 20, plainGrain 20 30] 15
    (by decide) (by decide) (by decide) (by decide) (by decide)

/-- C6: when the view's end reaches past the track's total length, the bounded
search returns the `-1` sentinel and `grainIndexesInView` clamps the resulting
`endIndex` to the index of the last grain; the sentinel never escapes as the
returned end index. -/
theorem grainIndexesInView_clamps_end (gs : List Grain) (v : View) (hne : gs ≠ [])
    (hend : (gs.getLastD noGrain).«end» ≤ v.«end») :
    ∃ idx, grainIndexesInView gs v = some idx ∧
      idx.endIndex = (gs.length : Int) - 1 ∧ 0 ≤ idx.endIndex := by
  cases gs with
  | nil => exact absurd rfl hne
  | cons g0 rest =>
    have hs : divisionBinarySearch v.«end» (g0 :: rest)
        (some (((g0 :: rest).getLastD noGrain).«end»)) = -1 := by
      simp only [divisionBinarySearch]
      rw [if_pos (by exact hend)]
    simp only [grainIndexesInView]
    rw [hs]
    refine ⟨_, rfl, ?_, ?_⟩
    · simp
    · simp [List.length_cons]

/-- Witness for `grainIndexesInView_clamps_end`. -/
theorem grainIndexesInView_clamps_end_witness :
    ∃ idx, grainIndexesInView [plainGrain 0 10, plainGrain 10 20] ⟨5, 25⟩ = some idx ∧
      idx.endIndex = (([plainGrain 0 10, plainGrain 10 20] : List Grain).length : Int) - 1 ∧
      0 ≤ idx.endIndex :=
  grainIndexesInView_clamps_end [plainGrain 0 10, plainGrain 10 20] ⟨5, 25⟩
    (by decide) (by decide)

/-- C8: the `-1` sentinel fallback is applied only to `endIndex`.  When the view's
start is at or beyond the track's total length, `grainIndexesInView` returns
`startIndex = -1`, and `whichGrainsToShow` then reads the grain array at index
`-1` — an out-of-bounds access (a thrown `TypeError` in JS, `none` here). -/
theorem grainIndexesInView_no_start_clamp (gs : List Grain) (v : View) (hne : gs ≠ [])
    (hstart : (gs.getLastD noGrain).«end» ≤ v.start) :
    (∃ idx, grainIndexesInView gs v = some idx ∧ idx.startIndex = -1) ∧
      whichGrainsToShow gs v = none := by
  cases gs with
  | nil => exact absurd rfl hne
  | cons g0 rest =>
    have hs : divisionBinarySearch v.start (g0 :: rest)
        (some (((g0 :: rest).getLastD noGrain).«end»)) = -1 := by
      simp only [divisionBinarySearch]
      rw [if_pos (by exact hstart)]
    have hgiv : grainIndexesInView (g0 :: rest) v =
        some ⟨-1, if divisionBinarySearch v.«end» (g0 :: rest)
            (some (((g0 :: rest).getLastD noGrain).«end»)) = -1
          then ((g0 :: rest).length : Int) - 1
          else divisionBinarySearch v.«end» (g0 :: rest)
            (some (((g0 :: rest).getLastD noGrain).«end»))⟩ := by
      simp only [grainIndexesInView]
      rw [hs]
    refine ⟨⟨_, hgiv, rfl⟩, ?_⟩
    rw [whichGrainsToShow, hgiv]
    simp [jsIndex]

/-- Witness for `grainIndexesInView_no_start_clamp`. -/
theorem grainIndexesInView_no_start_clamp_witness :
    (∃ idx, grainIndexesInView [plainGrain 0 10, plainGrain 10 20] ⟨25, 30⟩ = some idx ∧
      idx.startIndex = -1) ∧
    whichGrainsToShow [plainGrain 0 10, plainGrain 10 20] ⟨25, 30⟩ = none :=
  grainIndexesInView_no_start_clamp [plainGrain 0 10, plainGrain 10 20] ⟨25, 30⟩
    (by decide) (by decide)

/-- C5: in any successful result of `whichGrainsToShow`, the leading filler grain
has `filler = true` and `more` true exactly when `startIndex ≠ 0`, and the
trailing filler grain has `filler = true` and `more` true exactly when
`endIndex` differs from the index of the last grain. -/
theorem whichGrainsToShow_flags (gs : List Grain) (v : View) (idx : Indexes)
    (out : List Grain)
    (hidx : grainIndexesInView gs v = some idx)
    (hout : whichGrainsToShow gs v = some out) :
    (out.headD noGrain).filler = true ∧
    (out.headD noGrain).more = (idx.startIndex != 0) ∧
    (out.getLastD noGrain).filler = true ∧
    (out.getLastD noGrain).more = (((gs.length : Int) - 1) != idx.endIndex) := by
  rw [whichGrainsToShow, hidx] at hout
  simp only [] at hout
  cases h1 : jsIndex gs idx.startIndex with
  | none =>
    rw [h1] at hout
    simp at hout
  | some fg =>
    cases h2 : jsIndex gs idx.endIndex with
    | none =>
      rw [h1, h2] at hout
      simp at hout
    | some lg =>
      rw [h1, h2] at hout
      simp only [Option.some_inj] at hout
      subst hout
      refine ⟨rfl, rfl, ?_, ?_⟩ <;>
      · rw [← List.cons_append, getLastD_append_right _ _ (by simp)]
        rfl

/-- Witness for `whichGrainsToShow_flags`: a view covering the whole 2-grain track
gives `more = false` on both fillers. -/
theorem whichGrainsToShow_flags_witness :
    ∃ out, whichGrainsToShow [plainGrain 0 10, plainGrain 10 20] ⟨0, 20⟩ = some out ∧
      (out.headD noGrain).filler = true ∧
      (out.headD noGrain).more = ((Indexes.mk 0 1).startIndex != 0) ∧
      (out.getLastD noGrain).filler = true ∧
      (out.getLastD noGrain).more =
        ((([plainGrain 0 10, plainGrain 10 20] : List Grain).length : Int) - 1 !=
          (Indexes.mk 0 1).endIndex) := by
  refine ⟨createFillerGrain 0 0 false :: ([plainGrain 0 10, plainGrain 10 20] ++
    [createFillerGrain 20 20 false]), by decide, ?_⟩
  exact whichGrainsToShow_flags [plainGrain 0 10, plainGrain 10 20] ⟨0, 20⟩ ⟨0, 1⟩ _
    (by decide) (by decide)

/-- C7: the start filler always ends at the start of the grain that contains
`view.start` (the grain at `startIndex`), not at `view.start` itself; hence for a
view lying fully inside track bounds whose start is strictly inside a grain, the
start filler is a negative-length interval (`end < start`), not merely the
zero-length filler that occurs at aligned boundaries.  The second conjunct
exhibits such a view concretely. -/
theorem startFiller_end_is_grain_start :
    (∀ (gs : List Grain) (v : View) (idx : Indexes) (fg : Grain) (out : List Grain),
      grainIndexesInView gs v = some idx →
      jsIndex gs idx.startIndex = some fg →
      whichGrainsToShow gs v = some out →
      out.headD noGrain = createFillerGrain v.start fg.start (idx.startIndex != 0)) ∧
    (∃ out, whichGrainsToShow [plainGrain 0 10, plainGrain 10 20] ⟨5, 20⟩ = some out ∧
      Contiguous [plainGrain 0 10, plainGrain 10 20] ∧
      AllPos [plainGrain 0 10, plainGrain 10 20] ∧
      (([plainGrain 0 10, plainGrain 10 20] : List Grain).headD noGrain).start ≤ 5 ∧
      (5 : Int) < 20 ∧
      (20 : Int) ≤ (([plainGrain 0 10, plainGrain 10 20] : List Grain).getLastD noGrain).«end» ∧
      isInGrain 5 (plainGrain 0 10) = true ∧ (5 : Int) ≠ (plainGrain 0 10).start ∧
      (out.headD noGrain).«end» < (out.headD noGrain).start) := by
  constructor
  · intro gs v idx fg out hidx h1 hout
    rw [whichGrainsToShow, hidx] at hout
    simp only [] at hout
    cases h2 : jsIndex gs idx.endIndex with
    | none =>
      rw [h1, h2] at hout
      simp at hout
    | some lg =>
      rw [h1, h2] at hout
      simp only [Option.some_inj] at hout
      subst hout
      rfl
  · exact ⟨createFillerGrain 5 0 false :: ([plainGrain 0 10, plainGrain 10 20] ++
      [createFillerGrain 20 20 false]), by decide, by decide, by decide, by decide,
      by decide, by decide, by decide, by decide, by decide⟩

/-- Witness for `startFiller_end_is_grain_start`: the universal conjunct applied at
the concrete sequence and view of the existential conjunct. -/
theorem startFiller_end_is_grain_start_witness :
    ((createFillerGrain 5 0 false :: ([plainGrain 0 10, plainGrain 10 20] ++
      [createFillerGrain 20 20 false])).headD noGrain) =
      createFillerGrain 5 (plainGrain 0 10).start ((Indexes.mk 0 1).startIndex != 0) :=
  startFiller_end_is_grain_start.1 [plainGrain 0 10, plainGrain 10 20] ⟨5, 20⟩ ⟨0, 1⟩
    (plainGrain 0 10) _ (by decide) (by decide) (by decide)

/-- Counterexample to C3 as stated: for the contiguous track `[[0,10),[10,20)]` and
the in-bounds view `[0, 15)`, the result of `whichGrainsToShow` covers sample 17,
which is outside the view — the end filler is `[20, 15)`, a negative-length
interval, and the real grain `[10,20)` overruns the view. -/
theorem whichGrainsToShow_span_counterexample :
    ∃ out, whichGrainsToShow [plainGrain 0 10, plainGrain 10 20] ⟨0, 15⟩ = some out ∧
      Contiguous [plainGrain 0 10, plainGrain 10 20] ∧
      AllPos [plainGrain 0 10, plainGrain 10 20] ∧
      ¬ coversExactly out ⟨0, 15⟩ := by
  refine ⟨createFillerGrain 0 0 false :: ([plainGrain 0 10, plainGrain 10 20] ++
    [createFillerGrain 20 15 false]), by decide, by decide, by decide, ?_⟩
  intro h
  have h17 := (h 17).mp ⟨plainGrain 10 20, by decide, by decide, by decide⟩
  exact absurd h17.2 (by decide)

theorem jsIndex_nat (gs : List Grain) (k : Nat) (h : k < gs.length) :
    jsIndex gs ((k : Nat) : Int) = some (gs.getD k noGrain) := by
  unfold jsIndex
  rw [if_neg (by omega), Int.toNat_natCast, getD_in gs k h]
  exact List.getElem?_eq_getElem h

theorem slice_length (gs : List Grain) (k1 k2 : Nat) (h1 : k1 ≤ k2) (h2 : k2 < gs.length) :
    ((gs.take (k2 + 1)).drop k1).length = k2 + 1 - k1 := by
  rw [List.length_drop, List.length_take]
  omega

theorem slice_head? (gs : List Grain) (k1 k2 : Nat) (h1 : k1 ≤ k2) (h2 : k2 < gs.length) :
    ((gs.take (k2 + 1)).drop k1).head? = some (gs.getD k1 noGrain) := by
  rw [List.head?_eq_getElem?, List.getElem?_drop, Nat.add_zero,
    List.getElem?_take_of_lt (by omega), getD_in gs k1 (by omega)]
  exact List.getElem?_eq_getElem (by omega)

theorem slice_getLast? (gs : List Grain) (k1 k2 : Nat) (h1 : k1 ≤ k2) (h2 : k2 < gs.length) :
    ((gs.take (k2 + 1)).drop k1).getLast? = some (gs.getD k2 noGrain) := by
  rw [List.getLast?_eq_getElem?, slice_length gs k1 k2 h1 h2, List.getElem?_drop]
  have heq : k1 + (k2 + 1 - k1 - 1) = k2 := by omega
  rw [heq, List.getElem?_take_of_lt (by omega), getD_in gs k2 h2]
  exact List.getElem?_eq_getElem h2

/-- C3 (amended): for a valid non-empty sequence and a view inside track bounds,
`whichGrainsToShow` succeeds and returns exactly one filler grain, then the real
grains from `startIndex` through `endIndex` in their original order, then one
filler grain; the result is a contiguous chain whose first start is `view.start`
and whose last end is `view.end`.  (The fillers may have negative length — see
`whichGrainsToShow_span_counterexample` — so the chain need not be a monotone
partition of the view.) -/
theorem whichGrainsToShow_structure (gs : List Grain) (v : View)
    (hne : gs ≠ []) (hc : Contiguous gs) (ha : AllPos gs)
    (hs1 : (gs.headD noGrain).start ≤ v.start)
    (hlt : v.start < v.«end»)
    (hs2 : v.«end» ≤ (gs.getLastD noGrain).«end») :
    ∃ (k1 k2 : Nat) (out : List Grain),
      k1 ≤ k2 ∧ k2 < gs.length ∧
      whichGrainsToShow gs v = some out ∧
      out = createFillerGrain v.start (gs.getD k1 noGrain).start (((k1 : Nat) : Int) != 0)
          :: (((gs.take (k2 + 1)).drop k1) ++
            [createFillerGrain (gs.getD k2 noGrain).«end» v.«end»
              (((gs.length : Int) - 1) != ((k2 : Nat) : Int))]) ∧
      Contiguous out ∧
      (out.headD noGrain).start = v.start ∧
      (out.getLastD noGrain).«end» = v.«end» := by
  have hlen1 : 1 ≤ gs.length := List.length_pos.mpr hne
  have htl : v.start < (gs.getLastD noGrain).«end» := by omega
  obtain ⟨m1, hm1, hin1⟩ := exists_contains_of_between gs hc v.start hne hs1 htl
  obtain ⟨k1, hf1, hk1len, hk1in⟩ :
      ∃ k1 : Nat, findGrain v.start gs = (k1 : Int) ∧ k1 < gs.length ∧
        isInGrain v.start (gs.getD k1 noGrain) = true := by
    rcases findGrain_cases v.start gs with ⟨_, hall⟩ | ⟨k, hk, hklen, hkin, _⟩
    · rw [hall m1 hm1] at hin1
      exact absurd hin1 (by simp)
    · exact ⟨k, hk, hklen, hkin⟩
  have hk1in' : (gs.getD k1 noGrain).start ≤ v.start ∧
      v.start < (gs.getD k1 noGrain).«end» := by
    simpa [isInGrain] using hk1in
  obtain ⟨k2, hk12, hk2len, hendval⟩ :
      ∃ k2 : Nat, k1 ≤ k2 ∧ k2 < gs.length ∧
        (if divisionBinarySearch v.«end» gs (some ((gs.getLastD noGrain).«end»)) = -1
          then (gs.length : Int) - 1
          else divisionBinarySearch v.«end» gs (some ((gs.getLastD noGrain).«end»))) =
          ((k2 : Nat) : Int) := by
    by_cases hcase : (gs.getLastD noGrain).«end» ≤ v.«end»
    · refine ⟨gs.length - 1, by omega, by omega, ?_⟩
      have hsent : divisionBinarySearch v.«end» gs (some ((gs.getLastD noGrain).«end»)) = -1 := by
        simp only [divisionBinarySearch]
        rw [if_pos (by exact hcase)]
      rw [hsent, if_pos rfl]
      omega
    · push_neg at hcase
      have hs1' : (gs.headD noGrain).start ≤ v.«end» := by omega
      obtain ⟨m2, hm2, hin2⟩ := exists_contains_of_between gs hc v.«end» hne hs1' hcase
      obtain ⟨k2, hf2, hk2len, hk2in⟩ :
          ∃ k2 : Nat, findGrain v.«end» gs = (k2 : Int) ∧ k2 < gs.length ∧
            isInGrain v.«end» (gs.getD k2 noGrain) = true := by
        rcases findGrain_cases v.«end» gs with ⟨_, hall⟩ | ⟨k, hk, hklen, hkin, _⟩
        · rw [hall m2 hm2] at hin2
          exact absurd hin2 (by simp)
        · exact ⟨k, hk, hklen, hkin⟩
      have hk2in' : (gs.getD k2 noGrain).start ≤ v.«end» ∧
          v.«end» < (gs.getD k2 noGrain).«end» := by
        simpa [isInGrain] using hk2in
      have hk12 : k1 ≤ k2 := by
        by_contra hcon
        push_neg at hcon
        have hmono := end_le_start_of_lt gs hc ha k1 hk1len k2 hcon
        omega
      refine ⟨k2, hk12, hk2len, ?_⟩
      have hsr : divisionBinarySearch v.«end» gs (some ((gs.getLastD noGrain).«end»)) =
          ((k2 : Nat) : Int) := by
        simp only [divisionBinarySearch]
        rw [if_neg (by omega), hf2]
      rw [hsr, if_neg (by omega)]
  have hsr1 : divisionBinarySearch v.start gs (some ((gs.getLastD noGrain).«end»)) =
      ((k1 : Nat) : Int) := by
    simp only [divisionBinarySearch]
    rw [if_neg (by omega), hf1]
  have hgiv : grainIndexesInView gs v = some ⟨((k1 : Nat) : Int), ((k2 : Nat) : Int)⟩ := by
    cases gs with
    | nil => exact absurd rfl hne
    | cons g0 rest =>
      simp only [grainIndexesInView]
      rw [hsr1, hendval]
  have hj1 := jsIndex_nat gs k1 hk1len
  have hj2 := jsIndex_nat gs k2 hk2len
  have hout : whichGrainsToShow gs v =
      some (createFillerGrain v.start (gs.getD k1 noGrain).start (((k1 : Nat) : Int) != 0)
        :: (((gs.take (k2 + 1)).drop k1) ++
          [createFillerGrain (gs.getD k2 noGrain).«end» v.«end»
            (((gs.length : Int) - 1) != ((k2 : Nat) : Int))])) := by
    rw [whichGrainsToShow, hgiv]
    simp only []
    rw [hj1, hj2]
    simp only []
    have ht1 : ((k1 : Nat) : Int).toNat = k1 := Int.toNat_natCast k1
    have ht2 : (((k2 : Nat) : Int) + 1).toNat = k2 + 1 := by omega
    rw [ht1, ht2]
  have hmidh := slice_head? gs k1 k2 hk12 hk2len
  have hmidl := slice_getLast? gs k1 k2 hk12 hk2len
  have hmidlen := slice_length gs k1 k2 hk12 hk2len
  have hcchain : List.Chain' (fun a b : Grain => a.«end» = b.start) gs := hc
  have hmidc : List.Chain' (fun a b : Grain => a.«end» = b.start)
      ((gs.take (k2 + 1)).drop k1) := (hcchain.take (k2 + 1)).drop k1
  refine ⟨k1, k2, _, hk12, hk2len, hout, rfl, ?_, rfl, ?_⟩
  · unfold Contiguous
    rw [List.chain'_cons']
    constructor
    · intro y hy
      rw [List.head?_append, hmidh] at hy
      simp only [Option.or_some, Option.mem_def, Option.some_inj] at hy
      subst hy
      rfl
    · rw [List.chain'_append]
      refine ⟨hmidc, by simp, ?_⟩
      intro x hx y hy
      rw [hmidl] at hx
      simp only [Option.mem_def, Option.some_inj] at hx
      subst hx
      simp only [List.head?_cons, Option.mem_def, Option.some_inj] at hy
      subst hy
      rfl
  · rw [← List.cons_append, getLastD_append_right _ _ (by simp)]
    rfl

/-- Witness for `whichGrainsToShow_structure`: the 2-grain track `[[0,10),[10,20)]`
with the aligned view `[0, 20)`. -/
theorem whichGrainsToShow_structure_witness :
    ∃ (k1 k2 : Nat) (out : List Grain),
      k1 ≤ k2 ∧ k2 < ([plainGrain 0 10, plainGrain 10 20] : List Grain).length ∧
      whichGrainsToShow [plainGrain 0 10, plainGrain 10 20] ⟨0, 20⟩ = some out ∧
      out = createFillerGrain 0
          (([plainGrain 0 10, plainGrain 10 20] : List Grain).getD k1 noGrain).start
          (((k1 : Nat) : Int) != 0)
          :: ((((([plainGrain 0 10, plainGrain 10 20] : List Grain)).take (k2 + 1)).drop k1) ++
            [createFillerGrain
              (([plainGrain 0 10, plainGrain 10 20] : List Grain).getD k2 noGrain).«end» 20
              (((([plainGrain 0 10, plainGrain 10 20] : List Grain).length : Int) - 1) !=
                ((k2 : Nat) : Int))]) ∧
      Contiguous out ∧
      (out.headD noGrain).start = 0 ∧
      (out.getLastD noGrain).«end» = 20 :=
  whichGrainsToShow_structure [plainGrain 0 10, plainGrain 10 20] ⟨0, 20⟩
    (by decide) (by decide) (by decide) (by decide) (by decide) (by decide)

theorem logicalSegment_length (data : List Int) (L : Nat) :
    (logicalSegment data L).length = (data.length + L - 1) / L := by
  simp [logicalSegment]

theorem logicalSegment_getD (data : List Int) (L : Nat) (i : Nat)
    (h : i < (data.length + L - 1) / L) :
    (logicalSegment data L).getD i noGrain =
      plainGrain ((i * L : Nat) : Int) ((min ((i + 1) * L) data.length : Nat) : Int) := by
  simp only [logicalSegment]
  rw [List.getD_eq_getElem?_getD, List.getElem?_map, List.getElem?_range h]
  rfl

theorem segCount_eq (n L : Nat) (hL : 0 < L) (hn : 0 < n) :
    (n + L - 1) / L = (n - 1) / L + 1 := by
  have h1 : n + L - 1 = (n - 1) + L := by omega
  rw [h1, Nat.add_div_right _ hL]

theorem segCount_pos_imp (n L : Nat) (hL : 0 < L) (h : 0 < (n + L - 1) / L) : 0 < n := by
  by_contra hn
  push_neg at hn
  have hn0 : n = 0 := by omega
  subst hn0
  rw [Nat.div_eq_of_lt (by omega)] at h
  omega

theorem mul_le_of_lt_segCount (n L i : Nat) (hL : 0 < L) (hn : 0 < n)
    (h : i + 1 < (n + L - 1) / L) : (i + 1) * L < n := by
  rw [segCount_eq n L hL hn] at h
  have h2 : i + 1 ≤ (n - 1) / L := by omega
  have h3 : (i + 1) * L ≤ n - 1 := (Nat.le_div_iff_mul_le hL).mp h2
  omega

theorem start_lt_of_lt_segCount (n L i : Nat) (hL : 0 < L) (hn : 0 < n)
    (h : i < (n + L - 1) / L) : i * L < n := by
  rw [segCount_eq n L hL hn] at h
  have h2 : i ≤ (n - 1) / L := by omega
  have h3 : i * L ≤ n - 1 := (Nat.le_div_iff_mul_le hL).mp h2
  omega

theorem le_segCount_mul (n L : Nat) (hL : 0 < L) (hn : 0 < n) :
    n ≤ ((n + L - 1) / L) * L := by
  rw [segCount_eq n L hL hn]
  have h1 : (n - 1) / L < (n - 1) / L + 1 := by omega
  have h2 : n - 1 < ((n - 1) / L + 1) * L := (Nat.div_lt_iff_lt_mul hL).mp h1
  omega

/-- Full characterization of `logicalSegment` for a positive segment size:
contiguity, bare metadata, per-grain endpoints, uniform length of all grains but
the last, and a shortened-to-fit final grain covering the array exactly. -/
theorem logicalSegment_spec (data : List Int) (L : Nat) (hL : 0 < L) :
    Contiguous (logicalSegment data L) ∧
    (∀ g ∈ logicalSegment data L,
      g.filler = false ∧ g.more = false ∧ g.tag = 0 ∧ g.start < g.«end») ∧
    (∀ i, i < (logicalSegment data L).length →
      ((logicalSegment data L).getD i noGrain).start = ((i * L : Nat) : Int) ∧
      ((logicalSegment data L).getD i noGrain).«end» =
        ((min ((i + 1) * L) data.length : Nat) : Int)) ∧
    (∀ i, i + 1 < (logicalSegment data L).length →
      ((logicalSegment data L).getD i noGrain).«end» -
        ((logicalSegment data L).getD i noGrain).start = (L : Int)) ∧
    (data.length = 0 → logicalSegment data L = []) ∧
    (0 < data.length →
      logicalSegment data L ≠ [] ∧
      ((logicalSegment data L).headD noGrain).start = 0 ∧
      ((logicalSegment data L).getLastD noGrain).«end» = (data.length : Int) ∧
      0 < ((logicalSegment data L).getLastD noGrain).«end» -
        ((logicalSegment data L).getLastD noGrain).start ∧
      ((logicalSegment data L).getLastD noGrain).«end» -
        ((logicalSegment data L).getLastD noGrain).start ≤ (L : Int)) := by
  have hlen := logicalSegment_length data L
  refine ⟨?_, ?_, ?_, ?_, ?_, ?_⟩
  · unfold Contiguous
    rw [List.chain'_iff_get]
    intro i hi
    rw [hlen] at hi
    have hn : 0 < data.length := segCount_pos_imp data.length L hL (by omega)
    have hiL := mul_le_of_lt_segCount data.length L i hL hn (by omega)
    simp only [List.get_eq_getElem]
    rw [← getD_in _ i (by rw [hlen]; omega), ← getD_in _ (i + 1) (by rw [hlen]; omega),
      logicalSegment_getD data L i (by omega), logicalSegment_getD data L (i + 1) (by omega)]
    simp only [plainGrain]
    congr 1
    omega
  · intro g hg
    simp only [logicalSegment, List.mem_map, List.mem_range] at hg
    obtain ⟨i, hi, hfi⟩ := hg
    subst hfi
    have hn : 0 < data.length := segCount_pos_imp data.length L hL (by omega)
    have h1 := start_lt_of_lt_segCount data.length L i hL hn hi
    have h2 : i * L + L = (i + 1) * L := (Nat.succ_mul i L).symm
    refine ⟨rfl, rfl, rfl, ?_⟩
    simp only [plainGrain]
    omega
  · intro i hi
    rw [hlen] at hi
    rw [logicalSegment_getD data L i hi]
    exact ⟨rfl, rfl⟩
  · intro i hi
    rw [hlen] at hi
    have hn : 0 < data.length := segCount_pos_imp data.length L hL (by omega)
    have hiL := mul_le_of_lt_segCount data.length L i hL hn hi
    have h2 : i * L + L = (i + 1) * L := (Nat.succ_mul i L).symm
    rw [logicalSegment_getD data L i (by omega)]
    simp only [plainGrain]
    omega
  · intro h0
    have : (logicalSegment data L).length = 0 := by
      rw [hlen, h0]
      exact Nat.div_eq_of_lt (by omega)
    exact List.length_eq_zero.mp this
  · intro hn
    have hm : 0 < (data.length + L - 1) / L := by
      rw [segCount_eq data.length L hL hn]
      exact Nat.succ_pos _
    have hne : logicalSegment data L ≠ [] := by
      rw [← List.length_pos, hlen]
      exact hm
    have hhead : ((logicalSegment data L).headD noGrain).start = 0 := by
      rw [List.headD_eq_head?_getD, List.head?_eq_getElem?, ← List.getD_eq_getElem?_getD,
        logicalSegment_getD data L 0 hm]
      simp [plainGrain]
    have hlast : (logicalSegment data L).getLastD noGrain =
        plainGrain ((((data.length + L - 1) / L - 1) * L : Nat) : Int)
          ((min (((data.length + L - 1) / L - 1 + 1) * L) data.length : Nat) : Int) := by
      rw [List.getLastD_eq_getLast?, List.getLast?_eq_getElem?, ← List.getD_eq_getElem?_getD,
        hlen, logicalSegment_getD data L _ (by omega)]
    have hm1 : (data.length + L - 1) / L - 1 + 1 = (data.length + L - 1) / L := by omega
    have hfit : min (((data.length + L - 1) / L - 1 + 1) * L) data.length = data.length := by
      rw [hm1]
      exact Nat.min_eq_right (le_segCount_mul data.length L hL hn)
    have hstartlt := start_lt_of_lt_segCount data.length L ((data.length + L - 1) / L - 1)
      hL hn (by omega)
    have hmulsplit : ((data.length + L - 1) / L - 1) * L + L =
        ((data.length + L - 1) / L - 1 + 1) * L :=
      (Nat.succ_mul _ L).symm
    have hcover := le_segCount_mul data.length L hL hn
    rw [hm1] at hmulsplit
    refine ⟨hne, hhead, ?_, ?_, ?_⟩
    · rw [hlast]
      simp only [plainGrain, hfit]
    · rw [hlast]
      simp only [plainGrain, hfit]
      omega
    · rw [hlast]
      simp only [plainGrain, hfit]
      omega

/-- C10: for any data array and positive `secondsPerGrain`, the generated sequence
partitions `[0, data.length)` into consecutive grains of `secondsToSamples
secondsPerGrain` samples each — uniform per-grain endpoints, all grains but the
last of exactly that length, the final grain shortened to fit and still
non-empty, first start 0 and last end `data.length` — satisfying the contiguity
invariant, with no metadata beyond `start` and `end`. -/
theorem createEquallySpacedGrains_spec (data : List Int) (s : Nat) (hs : 0 < s) :
    Contiguous (createEquallySpacedGrains data s) ∧
    (∀ g ∈ createEquallySpacedGrains data s,
      g.filler = false ∧ g.more = false ∧ g.tag = 0 ∧ g.start < g.«end») ∧
    (∀ i, i < (createEquallySpacedGrains data s).length →
      ((createEquallySpacedGrains data s).getD i noGrain).start =
        ((i * secondsToSamples s : Nat) : Int) ∧
      ((createEquallySpacedGrains data s).getD i noGrain).«end» =
        ((min ((i + 1) * secondsToSamples s) data.length : Nat) : Int)) ∧
    (∀ i, i + 1 < (createEquallySpacedGrains data s).length →
      ((createEquallySpacedGrains data s).getD i noGrain).«end» -
        ((createEquallySpacedGrains data s).getD i noGrain).start =
        ((secondsToSamples s : Nat) : Int)) ∧
    (data.length = 0 → createEquallySpacedGrains data s = []) ∧
    (0 < data.length →
      createEquallySpacedGrains data s ≠ [] ∧
      ((createEquallySpacedGrains data s).headD noGrain).start = 0 ∧
      ((createEquallySpacedGrains data s).getLastD noGrain).«end» = (data.length : Int) ∧
      0 < ((createEquallySpacedGrains data s).getLastD noGrain).«end» -
        ((createEquallySpacedGrains data s).getLastD noGrain).start ∧
      ((createEquallySpacedGrains data s).getLastD noGrain).«end» -
        ((createEquallySpacedGrains data s).getLastD noGrain).start ≤
        ((secondsToSamples s : Nat) : Int)) := by
  have hL : 0 < secondsToSamples s := Nat.mul_pos hs (by omega)
  exact logicalSegment_spec data (secondsToSamples s) hL

/-- Witness for `createEquallySpacedGrains_spec` at a 3-sample array and 1 second
per grain (one shortened grain `[0, 3)`). -/
theorem createEquallySpacedGrains_spec_witness :
    Contiguous (createEquallySpacedGrains [4, 5, 6] 1) ∧
    (∀ g ∈ createEquallySpacedGrains [4, 5, 6] 1,
      g.filler = false ∧ g.more = false ∧ g.tag = 0 ∧ g.start < g.«end») ∧
    (∀ i, i < (createEquallySpacedGrains [4, 5, 6] 1).length →
      ((createEquallySpacedGrains [4, 5, 6] 1).getD i noGrain).start =
        ((i * secondsToSamples 1 : Nat) : Int) ∧
      ((createEquallySpacedGrains [4, 5, 6] 1).getD i noGrain).«end» =
        ((min ((i + 1) * secondsToSamples 1) ([4, 5, 6] : List Int).length : Nat) : Int)) ∧
    (∀ i, i + 1 < (createEquallySpacedGrains [4, 5, 6] 1).length →
      ((createEquallySpacedGrains [4, 5, 6] 1).getD i noGrain).«end» -
        ((createEquallySpacedGrains [4, 5, 6] 1).getD i noGrain).start =
        ((secondsToSamples 1 : Nat) : Int)) ∧
    (([4, 5, 6] : List Int).length = 0 → createEquallySpacedGrains [4, 5, 6] 1 = []) ∧
    (0 < ([4, 5, 6] : List Int).length →
      createEquallySpacedGrains [4, 5, 6] 1 ≠ [] ∧
      ((createEquallySpacedGrains [4, 5, 6] 1).headD noGrain).start = 0 ∧
      ((createEquallySpacedGrains [4, 5, 6] 1).getLastD noGrain).«end» =
        (([4, 5, 6] : List Int).length : Int) ∧
      0 < ((createEquallySpacedGrains [4, 5, 6] 1).getLastD noGrain).«end» -
        ((createEquallySpacedGrains [4, 5, 6] 1).getLastD noGrain).start ∧
      ((createEquallySpacedGrains [4, 5, 6] 1).getLastD noGrain).«end» -
        ((createEquallySpacedGrains [4, 5, 6] 1).getLastD noGrain).start ≤
        ((secondsToSamples 1 : Nat) : Int)) :=
  createEquallySpacedGrains_spec [4, 5, 6] 1 (by decide)

theorem jsCeilDiv_pos_imp (l c : Int) (hc : 0 < c) (h : 0 < jsCeilDiv l c) : 0 < l := by
  by_contra hl
  push_neg at hl
  have h1 : 0 ≤ (-l).fdiv c := Int.fdiv_nonneg (by omega) (by omega)
  unfold jsCeilDiv at h
  omega

/-- C9: for a grain sequence of proper intervals lying inside the data array, a
positive case rate, and any range-respecting random oracle, `createSampleCases`
returns one inner sequence per grain, positionally aligned, the `i`-th of length
`ceil(grainLength_i / caseRate)`, every value being the absolute value of a data
element at an index within that grain's span. -/
theorem createSampleCases_spec (rnd : Nat → Nat → Int → Int → Int)
    (grains : List Grain) (data : List Int) (caseRate : Int)
    (hrate : 0 < caseRate)
    (hg : ∀ g ∈ grains, g.start ≤ g.«end» ∧ 0 ≤ g.start ∧ g.«end» ≤ (data.length : Int))
    (hr : ∀ i k a b, a < b → a ≤ rnd i k a b ∧ rnd i k a b < b) :
    (createSampleCases rnd grains data caseRate).length = grains.length ∧
    ∀ i, i < grains.length →
      ((createSampleCases rnd grains data caseRate).getD i []).length =
        (jsCeilDiv ((grains.getD i noGrain).«end» - (grains.getD i noGrain).start)
          caseRate).toNat ∧
      ∀ v ∈ (createSampleCases rnd grains data caseRate).getD i [],
        ∃ j : Nat, (grains.getD i noGrain).start ≤ (j : Int) ∧
          (j : Int) < (grains.getD i noGrain).«end» ∧ v = |data.getD j 0| := by
  constructor
  · simp [createSampleCases]
  · intro i hi
    have hgr : (((grains.map (fun g : Grain => g.«end» - g.start)).map
        (fun l => jsCeilDiv l caseRate)).map range).getD i [] =
        range (jsCeilDiv ((grains.getD i noGrain).«end» - (grains.getD i noGrain).start)
          caseRate) := by
      rw [List.getD_eq_getElem?_getD, List.getElem?_map, List.getElem?_map,
        List.getElem?_map, List.getElem?_eq_getElem hi]
      simp [List.getElem?_eq_getElem hi]
    have hfi : (createSampleCases rnd grains data caseRate).getD i [] =
        ((range (jsCeilDiv ((grains.getD i noGrain).«end» -
            (grains.getD i noGrain).start) caseRate)).map
          (fun k => rnd i k (grains.getD i noGrain).start (grains.getD i noGrain).«end»)).map
            (fun y => |nthData data y|) := by
      simp only [createSampleCases, grainLengths]
      rw [List.getD_eq_getElem?_getD, List.getElem?_map, List.getElem?_range hi]
      simp only [Option.map_some', Option.getD_some]
      rw [hgr, List.map_map]
      rfl
    rw [hfi]
    constructor
    · simp only [List.length_map, range, List.length_range]
    · intro v hv
      simp only [List.mem_map] at hv
      obtain ⟨y, ⟨k, hk, hyk⟩, hvy⟩ := hv
      have hkpos : 0 < jsCeilDiv ((grains.getD i noGrain).«end» -
          (grains.getD i noGrain).start) caseRate := by
        simp only [range, List.mem_range] at hk
        omega
      have hlpos := jsCeilDiv_pos_imp _ caseRate hrate hkpos
      have hmem : grains.getD i noGrain ∈ grains := by
        rw [getD_in grains i hi]
        exact List.getElem_mem hi
      obtain ⟨hle, hnn, hbound⟩ := hg _ hmem
      have hrk := hr i k (grains.getD i noGrain).start (grains.getD i noGrain).«end»
        (by omega)
      refine ⟨(rnd i k (grains.getD i noGrain).start (grains.getD i noGrain).«end»).toNat,
        ?_, ?_, ?_⟩
      · omega
      · omega
      · rw [← hvy, ← hyk]
        unfold nthData
        rw [if_neg (by omega)]

/-- Witness for `createSampleCases_spec`: two grains over a 7-element array with
`caseRate = 2` and the low-end oracle. -/
theorem createSampleCases_spec_witness :
    (createSampleCases (fun _ _ a _ => a) [plainGrain 0 3, plainGrain 3 7]
      [1, -2, 3, -4, 5, -6, 7] 2).length =
      ([plainGrain 0 3, plainGrain 3 7] : List Grain).length ∧
    ∀ i, i < ([plainGrain 0 3, plainGrain 3 7] : List Grain).length →
      ((createSampleCases (fun _ _ a _ => a) [plainGrain 0 3, plainGrain 3 7]
          [1, -2, 3, -4, 5, -6, 7] 2).getD i []).length =
        (jsCeilDiv ((([plainGrain 0 3, plainGrain 3 7] : List Grain).getD i noGrain).«end» -
          (([plainGrain 0 3, plainGrain 3 7] : List Grain).getD i noGrain).start) 2).toNat ∧
      ∀ v ∈ (createSampleCases (fun _ _ a _ => a) [plainGrain 0 3, plainGrain 3 7]
          [1, -2, 3, -4, 5, -6, 7] 2).getD i [],
        ∃ j : Nat, (([plainGrain 0 3, plainGrain 3 7] : List Grain).getD i noGrain).start ≤
            (j : Int) ∧
          (j : Int) < (([plainGrain 0 3, plainGrain 3 7] : List Grain).getD i noGrain).«end» ∧
          v = |([1, -2, 3, -4, 5, -6, 7] : List Int).getD j 0| :=
  createSampleCases_spec (fun _ _ a _ => a) [plainGrain 0 3, plainGrain 3 7]
    [1, -2, 3, -4, 5, -6, 7] 2 (by decide) (by decide)
    (fun i k a b h => ⟨le_refl a, h⟩)
